import Mathlib

/-!
Shallow embedding of the eps-server image store core
(`src/image_handler.rs`, `src/error.rs`, `src/config.rs`, `src/main.rs`).

Rust strings are modelled as `List Char`; byte-indexed operations
(`str::len`, `str::get(i..j)`) are modelled byte-accurately via
`Char.utf8Size`.  Machine integers (`u8`, `u32`) are modelled as `Nat`
with explicit range side conditions.  The filesystem is modelled as an
association list from file names to byte contents, and the external
rasterizer crates (`usvg`, `resvg`, `tiny_skia`) are abstract parameters
of the render path.
-/

namespace EpsServer

/-! ## Error type (`src/error.rs`, `AppError`) -/

/-- `AppError` from `src/error.rs`.  The spec's taxonomy maps
`StoreUnavailable` to `InternalServerError`, `AssetNotFound` to
`NotFound`, and `InvalidAddress`/`InvalidVectorInput` to `BadRequest`.
The wrapped `eyre::Error` payloads are dropped. -/
inductive AppError
  | internalServerError
  | notFound
  | badRequest
deriving DecidableEq, Repr

/-! ## Characters and hex digits -/

/-- Value of an ASCII hex digit, as accepted by Rust's
`char::to_digit(16)`: `0-9`, `a-f`, `A-F`. -/
def hexVal? (c : Char) : Option Nat :=
  if 48 ≤ c.toNat ∧ c.toNat ≤ 57 then some (c.toNat - 48)
  else if 97 ≤ c.toNat ∧ c.toNat ≤ 102 then some (c.toNat - 87)
  else if 65 ≤ c.toNat ∧ c.toNat ≤ 70 then some (c.toNat - 55)
  else none

/-- `true` iff `c` is an ASCII hexadecimal digit. -/
def isHexDigitChar (c : Char) : Bool :=
  (hexVal? c).isSome

/-- ASCII uppercasing of a single character (`a-z` to `A-Z`). -/
def asciiToUpper (c : Char) : Char :=
  if 97 ≤ c.toNat ∧ c.toNat ≤ 122 then Char.ofNat (c.toNat - 32) else c

/-- ASCII lowercasing of a single character (`A-Z` to `a-z`), as
`str::to_lowercase` acts on the ASCII output of `EpdMac`'s `Display`. -/
def asciiToLower (c : Char) : Char :=
  if 65 ≤ c.toNat ∧ c.toNat ≤ 90 then Char.ofNat (c.toNat + 32) else c

/-! ## `u8::from_str_radix(sub, 16)`

Rust's `from_str_radix` accepts an optional leading `+` sign followed by
one or more digits of the radix, rejects a leading `-` for unsigned
types, rejects the empty string and a bare sign, and fails on overflow
past `u8::MAX`.  The digit loop walks the bytes of the string; on the
(at most 2-byte) inputs produced by `EpdMac::from_str` a non-ASCII
character is never a valid digit either byte-wise or char-wise, so the
char-wise model below agrees with the byte-wise original on every input
it is applied to. -/

/-- Fold a non-empty digit list with the `u8` overflow check.  `none` on
an empty list, a non-hex character, or a value above 255. -/
def hexDigitsVal? (s : List Char) : Option Nat :=
  match s with
  | [] => none
  | _ :: _ =>
    s.foldl (fun acc c =>
      match acc, hexVal? c with
      | some v, some d => if v * 16 + d ≤ 255 then some (v * 16 + d) else none
      | _, _ => none) (some 0)

/-- Model of `u8::from_str_radix(s, 16)` returning `none` for `Err`. -/
def u8FromStrRadix16 (s : List Char) : Option Nat :=
  match s with
  | [] => none
  | c :: rest =>
    if c = '+' then
      match rest with
      | [] => none
      | _ => hexDigitsVal? rest
    else
      hexDigitsVal? s

/-! ## Byte-indexed string slicing (`str::len`, `str::get(i..i+2)`) -/

/-- UTF-8 byte length of a string, i.e. Rust's `str::len`. -/
def utf8Len (s : List Char) : Nat :=
  (s.map Char.utf8Size).sum

/-- Drop exactly `n` UTF-8 bytes from the front; `none` when `n` is not
a character boundary or exceeds the string. -/
def dropBytes (n : Nat) (s : List Char) : Option (List Char) :=
  match n, s with
  | 0, s => some s
  | _ + 1, [] => none
  | n + 1, c :: cs =>
    if c.utf8Size ≤ n + 1 then dropBytes (n + 1 - c.utf8Size) cs else none

/-- Take exactly `n` UTF-8 bytes from the front; `none` when `n` is not
a character boundary or exceeds the string. -/
def takeBytes (n : Nat) (s : List Char) : Option (List Char) :=
  match n, s with
  | 0, _ => some []
  | _ + 1, [] => none
  | n + 1, c :: cs =>
    if c.utf8Size ≤ n + 1 then (takeBytes (n + 1 - c.utf8Size) cs).map (c :: ·)
    else none

/-- Model of `s.get(i..j)`: the sub-slice between byte offsets `i` and
`j`, defined only when both are character boundaries within the string. -/
def strGet (s : List Char) (i j : Nat) : Option (List Char) :=
  (dropBytes i s).bind (takeBytes (j - i))

/-! ## `EpdMac` (`src/image_handler.rs`) -/

/-- `MAC_LEN` from `src/image_handler.rs`. -/
def MAC_LEN : Nat := 8

/-- An `EpdMac` value `EpdMac([u8; 8])` is modelled as a `List Nat`;
theorems carry the invariants `length = 8` and `∀ b, b < 256`. -/
abbrev MacBytes := List Nat

/-- `EpdMac::from_str`: requires byte length 16, slices the 8 aligned
2-byte windows, keeps those that parse under `u8::from_str_radix(_, 16)`
(`filter_map`), and succeeds iff all 8 survive (`try_into::<[u8; 8]>`). -/
def epdMacFromStr (s : List Char) : Option MacBytes :=
  if utf8Len s ≠ MAC_LEN * 2 then none
  else
    let bytes := (List.range MAC_LEN).filterMap fun k =>
      (strGet s (2 * k) (2 * k + 2)).bind u8FromStrRadix16
    if bytes.length = MAC_LEN then some bytes else none

/-- One byte printed as `{b:02X}`: two uppercase hex digits (for
`b < 256`). -/
def hexDigitUpper (d : Nat) : Char :=
  if d < 10 then Char.ofNat (48 + d) else Char.ofNat (55 + d)

/-- `{b:02X}` for a single byte. -/
def byteHexUpper (b : Nat) : List Char :=
  [hexDigitUpper (b / 16), hexDigitUpper (b % 16)]

/-- `Display for EpdMac`: each byte as two uppercase hex digits,
most-significant byte first. -/
def epdMacToString (m : MacBytes) : List Char :=
  m.flatMap byteHexUpper

/-- `mac.to_string().to_lowercase()`: the lowercase filename stem used
for every asset path. -/
def macFileStem (m : MacBytes) : List Char :=
  (epdMacToString m).map asciiToLower

/-! ## File extensions (`SVG_EXT`, `BMP_EXT`, `PNG_EXT`) -/

/-- `SVG_EXT` constant. -/
def SVG_EXT : List Char := ".svg".data

/-- `BMP_EXT` constant. -/
def BMP_EXT : List Char := ".bmp".data

/-- `PNG_EXT` constant. -/
def PNG_EXT : List Char := ".png".data

/-! ## `Path::file_stem` / `Path::extension` on a file name

`std::path` splits a file name at the last `.`; a dot at index 0 (a
hidden file like `.png`) does not begin an extension. -/

/-- Split at the last `.` of the list, if any: `(before, after)`. -/
def splitLastDot : List Char → Option (List Char × List Char)
  | [] => none
  | c :: cs =>
    match splitLastDot cs with
    | some (st, ext) => some (c :: st, ext)
    | none => if c = '.' then some ([], cs) else none

/-- Split a file name into `(stem, extension)` at its last `.`, ignoring
a dot at index 0, like `std::path`. -/
def rustSplitExt (name : List Char) : Option (List Char × List Char) :=
  match name with
  | [] => none
  | c :: cs =>
    match splitLastDot cs with
    | some (st, ext) => some (c :: st, ext)
    | none => none

/-- `Path::extension` of a file name. -/
def rustExtension (name : List Char) : Option (List Char) :=
  (rustSplitExt name).map Prod.snd

/-- `Path::file_stem` of a file name. -/
def rustFileStem (name : List Char) : Option (List Char) :=
  match rustSplitExt name with
  | some p => some p.1
  | none => if name.isEmpty then none else some name

/-! ## `ImageHandler::get_macs`

A directory listing is either an open failure (`read_dir` returns
`Err`) or a list of entries; an entry that is itself an I/O error
(`Err` inside the iterator, skipped by `.flatten()`) is `none`, and an
`Ok` entry is `some` of its file name. -/

/-- Result of `read_dir(image_dir)`. -/
inductive DirListing
  | openErr : DirListing
  | entries : List (Option (List Char)) → DirListing

/-- Collecting an iterator of `Result`s into `Result<Vec<_>>`: succeeds
iff every element does. -/
def sequenceOpt : List (Option α) → Option (List α)
  | [] => some []
  | none :: _ => none
  | some a :: rest => (sequenceOpt rest).map (a :: ·)

/-- The `filter_map` body of `get_macs`: keep the stems of entries whose
extension is `png` (skipping entries with no extension, another
extension, or no stem). -/
def pngStems (ents : List (Option (List Char))) : List (List Char) :=
  (ents.filterMap id).filterMap fun name =>
    match rustExtension name with
    | some ext => if ext = "png".data then rustFileStem name else none
    | none => none

/-- `ImageHandler::get_macs`: parse every kept stem and collect the
`Result`s; `read_dir` failure and any stem parse failure both surface
as `InternalServerError`. -/
def get_macs : DirListing → Except AppError (List MacBytes)
  | .openErr => .error .internalServerError
  | .entries ents =>
    match sequenceOpt ((pngStems ents).map epdMacFromStr) with
    | some macs => .ok macs
    | none => .error .internalServerError

/-! ## The store -/

/-- The image directory as a map from file names to byte contents,
as an association list. -/
abbrev Store := List (List Char × List Char)

/-- Content of the file at `p`, if present. -/
def store_get (s : Store) (p : List Char) : Option (List Char) :=
  s.lookup p

/-- `File::create` + full write: create-or-truncate `p` to content `v`. -/
def store_set (s : Store) (p v : List Char) : Store :=
  (p, v) :: s.filter (fun e => e.1 != p)

/-- `std::fs::remove_file`: succeeds iff the file exists, removing it. -/
def store_remove (s : Store) (p : List Char) : Bool × Store :=
  match s.lookup p with
  | some _ => (true, s.filter (fun e => e.1 != p))
  | none => (false, s)

/-! ## `ImageHandler::delete_images` -/

/-- `ImageHandler::delete_images`: removes the `.svg`, `.bmp` and
`.png` files for the address; `NotFound` iff all three removals fail. -/
def delete_images (mac : MacBytes) (store : Store) :
    Except AppError Unit × Store :=
  let stem := macFileStem mac
  let svgP := stem ++ SVG_EXT
  let bmpP := stem ++ BMP_EXT
  let pngP := stem ++ PNG_EXT
  let r1 := store_remove store svgP
  let r2 := store_remove r1.2 bmpP
  let r3 := store_remove r2.2 pngP
  if r1.1 = false ∧ r2.1 = false ∧ r3.1 = false then (.error .notFound, r3.2)
  else (.ok (), r3.2)

/-! ## `ImageHandler::post_svg_body`

The external crates are abstract parameters: `usvgTreeSize` models
`usvg::Tree::from_data` followed by `.svg_node().size.to_screen_size()`
(`none` = parse error, `some (w, h)` = the parsed document's screen
size); `encodePng` models `tiny_skia`'s PNG encoder applied to a pixmap
of the given dimensions.  `FsOracle` decides which filesystem
operations succeed. Paths are file names in the single image
directory. -/

/-- Which filesystem/render steps succeed in a run. -/
structure FsOracle where
  createOk : Bool
  renderOk : Bool
  savePngOk : Bool
  writeSvgOk : Bool

/-- Observable mutation events of one `post_svg_body` run, in order. -/
inductive FsEvent
  | createSvgFile
  | writePngFile
  | writeSvgBytes
deriving DecidableEq, Repr

/-- Call outcome: `Ok`, an `AppError`, or a Rust panic (the `unwrap`
on `tiny_skia::Pixmap::new`, which is `None` for a zero dimension). -/
inductive PostResult
  | ok
  | err (e : AppError)
  | crash
deriving DecidableEq, Repr

/-- Result bundle of a `post_svg_body` run: outcome, final store,
mutation trace, and the dimensions of the pixmap handed to the
encoder (when one was created). -/
structure PostOutcome where
  result : PostResult
  store : Store
  events : List FsEvent
  pixmapDims : Option (Nat × Nat)
deriving DecidableEq, Repr

/-- The SVG open tag written by the `write!` in `post_svg_body`. -/
def svgOpenTag (w h : Nat) : List Char :=
  "<svg xmlns=\"http://www.w3.org/2000/svg\" viewBox=\"0 0 ".data
    ++ (Nat.repr w).data ++ " ".data ++ (Nat.repr h).data ++ "\">".data

/-- The wrapped document: open tag, the caller's body bytes, close tag. -/
def wrapSvg (w h : Nat) (body : List Char) : List Char :=
  svgOpenTag w h ++ body ++ "</svg>".data

/-- `ImageHandler::post_svg_body`, following the source order:
create-or-truncate the `.svg` file, build the wrapped document, parse
it (`BadRequest` on failure), create the pixmap at the parsed screen
size (panic on a zero dimension), render (`InternalServerError` on
failure), save the PNG, then write the wrapped bytes into the `.svg`
file handle; every I/O failure is `InternalServerError`. -/
def post_svg_body (w h : Nat)
    (usvgTreeSize : List Char → Option (Nat × Nat))
    (encodePng : Nat → Nat → List Char)
    (oracle : FsOracle) (mac : MacBytes) (svgBody : List Char)
    (store : Store) : PostOutcome :=
  let stem := macFileStem mac
  let svgP := stem ++ SVG_EXT
  let pngP := stem ++ PNG_EXT
  if oracle.createOk = false then
    ⟨.err .internalServerError, store, [], none⟩
  else
    let store1 := store_set store svgP []
    let buf := wrapSvg w h svgBody
    match usvgTreeSize buf with
    | none => ⟨.err .badRequest, store1, [.createSvgFile], none⟩
    | some dims =>
      if dims.1 = 0 ∨ dims.2 = 0 then
        ⟨.crash, store1, [.createSvgFile], none⟩
      else if oracle.renderOk = false then
        ⟨.err .internalServerError, store1, [.createSvgFile], some dims⟩
      else if oracle.savePngOk = false then
        ⟨.err .internalServerError, store1, [.createSvgFile], some dims⟩
      else
        let store2 := store_set store1 pngP (encodePng dims.1 dims.2)
        if oracle.writeSvgOk = false then
          ⟨.err .internalServerError, store2,
            [.createSvgFile, .writePngFile], some dims⟩
        else
          ⟨.ok, store_set store2 svgP buf,
            [.createSvgFile, .writePngFile, .writeSvgBytes], some dims⟩

/-! ## Orderings (`derive(PartialOrd, Ord)` on `EpdMac`, `str` order) -/

/-- Lexicographic `≤` on byte lists: the derived `Ord` of
`EpdMac([u8; 8])`. -/
def bytesLe : List Nat → List Nat → Bool
  | [], _ => true
  | _ :: _, [] => false
  | a :: as, b :: bs =>
    if a < b then true else if b < a then false else bytesLe as bs

/-- Lexicographic `≤` on strings (by code point; byte order and code
point order agree on ASCII). -/
def charsLe : List Char → List Char → Bool
  | [], _ => true
  | _ :: _, [] => false
  | a :: as, b :: bs =>
    if a.toNat < b.toNat then true
    else if b.toNat < a.toNat then false
    else charsLe as bs

/-! ## Specification-side view of address parsing

For the claims about `EpdMac::from_str` the input is characterized by
consecutive character pairs, independently of the byte-indexed slicing
the source performs. -/

/-- Chunk a list into consecutive pairs; `none` on odd length. -/
def pairsOfList : List Char → Option (List (Char × Char))
  | [] => some []
  | [_] => none
  | c1 :: c2 :: rest => (pairsOfList rest).map ((c1, c2) :: ·)

/-- A pair accepted by `u8::from_str_radix(_, 16)`: two hex digits, or
`+` followed by one hex digit. -/
def pairOkB (p : Char × Char) : Bool :=
  (isHexDigitChar p.1 && isHexDigitChar p.2) ||
    (p.1 = '+' && isHexDigitChar p.2)

/-- Hex value of a character, defaulting to 0. -/
def hexValD (c : Char) : Nat :=
  (hexVal? c).getD 0

/-- The byte value a pair decodes to. -/
def pairValSpec (p : Char × Char) : Nat :=
  if p.1 = '+' then hexValD p.2 else 16 * hexValD p.1 + hexValD p.2

/-! ## Concrete demonstration inputs -/

/-- The address `0011223344556677`. -/
def mac0011 : MacBytes := [0x00, 0x11, 0x22, 0x33, 0x44, 0x55, 0x66, 0x77]

/-- The address `AABBCCDDEEFFAABB`. -/
def macAABB : MacBytes := [0xaa, 0xbb, 0xcc, 0xdd, 0xee, 0xff, 0xaa, 0xbb]

/-- A parser that rejects every document. -/
def rejectSvgDoc : List Char → Option (Nat × Nat) := fun _ => none

/-- A parser conforming to the rasterizer contract for a 128×296
display: the parsed screen size is the declared viewport. -/
def size128x296 : List Char → Option (Nat × Nat) := fun _ => some (128, 296)

/-- A demonstration PNG encoder keyed on the pixmap dimensions. -/
def pngEncDemo : Nat → Nat → List Char :=
  fun a b => (Nat.repr a).data ++ "x".data ++ (Nat.repr b).data

/-- All filesystem steps succeed. -/
def oracleAllOk : FsOracle := ⟨true, true, true, true⟩

/-- Saving the PNG fails. -/
def oraclePngFail : FsOracle := ⟨true, true, false, true⟩

/-- Writing the wrapped bytes into the `.svg` file fails. -/
def oracleSvgFail : FsOracle := ⟨true, true, true, false⟩

/-- A store holding a non-empty `.svg` file for `mac0011`. -/
def storeWithOldSvg : Store := [("0011223344556677.svg".data, "old".data)]

/-- A store holding only the `.png` file for `mac0011`. -/
def storeWithPng : Store := [("0011223344556677.png".data, "img".data)]

/-! ## Store lemmas -/

theorem lookup_filter_self (s : Store) (p : List Char) :
    (s.filter (fun e => e.1 != p)).lookup p = none := by
  induction s with
  | nil => rfl
  | cons e es ih =>
    obtain ⟨k, v⟩ := e
    by_cases h : k = p
    · simpa [List.filter_cons, h] using ih
    · have hb : (p == k) = false := by
        simpa [beq_iff_eq] using fun hh => h hh.symm
      simp only [List.filter_cons, bne_iff_ne, ne_eq, h, not_false_eq_true,
        if_true, List.lookup_cons, hb]
      exact ih

theorem lookup_filter_ne (s : Store) (p q : List Char) (hpq : p ≠ q) :
    (s.filter (fun e => e.1 != q)).lookup p = s.lookup p := by
  induction s with
  | nil => rfl
  | cons e es ih =>
    obtain ⟨k, v⟩ := e
    by_cases h : k = q
    · have hb : (p == k) = false := by
        simpa [beq_iff_eq, h] using hpq
      subst h
      simp [List.filter_cons, List.lookup_cons, hb, ih]
    · simp only [List.filter_cons, bne_iff_ne, ne_eq, h, not_false_eq_true,
        if_true, List.lookup_cons]
      cases hb : p == k
      · exact ih
      · rfl

theorem store_remove_lookup_self (s : Store) (p : List Char) :
    ((store_remove s p).2).lookup p = none := by
  unfold store_remove
  cases h : s.lookup p with
  | none => simpa using h
  | some v => simpa using lookup_filter_self s p

theorem store_remove_lookup_ne (s : Store) (p q : List Char) (hpq : p ≠ q) :
    ((store_remove s q).2).lookup p = s.lookup p := by
  unfold store_remove
  cases h : s.lookup q with
  | none => rfl
  | some v => simpa using lookup_filter_ne s p q hpq

theorem store_remove_fst (s : Store) (p : List Char) :
    (store_remove s p).1 = (s.lookup p).isSome := by
  unfold store_remove
  cases h : s.lookup p <;> simp

/-- The three asset paths of an address are pairwise distinct. -/
theorem asset_paths_distinct (m : MacBytes) :
    macFileStem m ++ SVG_EXT ≠ macFileStem m ++ BMP_EXT ∧
    macFileStem m ++ SVG_EXT ≠ macFileStem m ++ PNG_EXT ∧
    macFileStem m ++ BMP_EXT ≠ macFileStem m ++ PNG_EXT := by
  refine ⟨?_, ?_, ?_⟩ <;>
    · intro h
      have := List.append_cancel_left h
      simp [SVG_EXT, BMP_EXT, PNG_EXT] at this

theorem store_remove_none (s : Store) (p : List Char)
    (h : s.lookup p = none) : store_remove s p = (false, s) := by
  unfold store_remove
  rw [h]

/-- The call part of `delete_images` depends only on which of the three
files are initially present. -/
theorem delete_images_result (m : MacBytes) (s : Store) :
    (delete_images m s).1 =
      if store_get s (macFileStem m ++ SVG_EXT) = none ∧
         store_get s (macFileStem m ++ BMP_EXT) = none ∧
         store_get s (macFileStem m ++ PNG_EXT) = none
      then Except.error AppError.notFound else Except.ok () := by
  obtain ⟨hsb, hsp, hbp⟩ := asset_paths_distinct m
  simp only [delete_images, store_get]
  rw [store_remove_fst, store_remove_fst, store_remove_fst,
    store_remove_lookup_ne _ _ _ (Ne.symm hsb),
    store_remove_lookup_ne _ _ _ (Ne.symm hbp),
    store_remove_lookup_ne _ _ _ (Ne.symm hsp)]
  by_cases h1 : s.lookup (macFileStem m ++ SVG_EXT) = none <;>
    by_cases h2 : s.lookup (macFileStem m ++ BMP_EXT) = none <;>
    by_cases h3 : s.lookup (macFileStem m ++ PNG_EXT) = none <;>
    simp [h1, h2, h3, Option.isSome_iff_ne_none]

/-- After `delete_images`, none of the three files remains. -/
theorem delete_images_clears (m : MacBytes) (s : Store) :
    store_get (delete_images m s).2 (macFileStem m ++ SVG_EXT) = none ∧
    store_get (delete_images m s).2 (macFileStem m ++ BMP_EXT) = none ∧
    store_get (delete_images m s).2 (macFileStem m ++ PNG_EXT) = none := by
  obtain ⟨hsb, hsp, hbp⟩ := asset_paths_distinct m
  have h2 : (delete_images m s).2 =
      (store_remove (store_remove (store_remove s
        (macFileStem m ++ SVG_EXT)).2
        (macFileStem m ++ BMP_EXT)).2
        (macFileStem m ++ PNG_EXT)).2 := by
    simp only [delete_images]
    by_cases h : (store_remove s (macFileStem m ++ SVG_EXT)).1 = false ∧
        (store_remove (store_remove s (macFileStem m ++ SVG_EXT)).2
          (macFileStem m ++ BMP_EXT)).1 = false ∧
        (store_remove (store_remove (store_remove s
          (macFileStem m ++ SVG_EXT)).2 (macFileStem m ++ BMP_EXT)).2
          (macFileStem m ++ PNG_EXT)).1 = false <;>
      simp [h]
  rw [h2]
  unfold store_get
  refine ⟨?_, ?_, ?_⟩
  · rw [store_remove_lookup_ne _ _ _ hsp, store_remove_lookup_ne _ _ _ hsb]
    exact store_remove_lookup_self s _
  · rw [store_remove_lookup_ne _ _ _ hbp]
    exact store_remove_lookup_self _ _
  · exact store_remove_lookup_self _ _

/-- C4: `delete_images` fails with `NotFound` exactly when all three
removals fail (all files absent); one present file suffices for
success; afterwards all three are absent, so an immediate second call
fails with `NotFound`. -/
theorem delete_images_spec (m : MacBytes) (s : Store) :
    (store_get s (macFileStem m ++ SVG_EXT) = none ∧
     store_get s (macFileStem m ++ BMP_EXT) = none ∧
     store_get s (macFileStem m ++ PNG_EXT) = none →
       (delete_images m s).1 = Except.error AppError.notFound) ∧
    ((store_get s (macFileStem m ++ SVG_EXT)).isSome ∨
     (store_get s (macFileStem m ++ BMP_EXT)).isSome ∨
     (store_get s (macFileStem m ++ PNG_EXT)).isSome →
       (delete_images m s).1 = Except.ok ()) ∧
    store_get (delete_images m s).2 (macFileStem m ++ SVG_EXT) = none ∧
    store_get (delete_images m s).2 (macFileStem m ++ BMP_EXT) = none ∧
    store_get (delete_images m s).2 (macFileStem m ++ PNG_EXT) = none ∧
    (delete_images m (delete_images m s).2).1 =
      Except.error AppError.notFound := by
  obtain ⟨c1, c2, c3⟩ := delete_images_clears m s
  refine ⟨?_, ?_, c1, c2, c3, ?_⟩
  · intro h
    rw [delete_images_result, if_pos h]
  · intro h
    rw [delete_images_result, if_neg]
    rintro ⟨h1, h2, h3⟩
    rcases h with h | h | h <;> simp_all
  · rw [delete_images_result, if_pos ⟨c1, c2, c3⟩]

/-! ## `store_set` lemmas -/

theorem store_get_set_self (s : Store) (p v : List Char) :
    store_get (store_set s p v) p = some v := by
  simp [store_get, store_set, List.lookup_cons]

theorem store_get_set_ne (s : Store) (p q v : List Char) (h : q ≠ p) :
    store_get (store_set s p v) q = store_get s q := by
  have hb : (q == p) = false := by simpa [beq_iff_eq] using h
  simp only [store_get, store_set, List.lookup_cons, hb]
  exact lookup_filter_ne s q p h

/-! ## Render-path theorems -/

/-- C2 (amended): when the wrapped document is rejected by the parser,
the call fails with `BadRequest`, but the `.svg` file has already been
created and truncated to empty; the `.png` file is untouched. -/
theorem post_svg_body_reject (w h : Nat)
    (usvgTreeSize : List Char → Option (Nat × Nat))
    (encodePng : Nat → Nat → List Char) (oracle : FsOracle)
    (mac : MacBytes) (svgBody : List Char) (store : Store)
    (hcr : oracle.createOk = true)
    (hp : usvgTreeSize (wrapSvg w h svgBody) = none) :
    post_svg_body w h usvgTreeSize encodePng oracle mac svgBody store =
      ⟨.err .badRequest,
        store_set store (macFileStem mac ++ SVG_EXT) [],
        [.createSvgFile], none⟩ ∧
    store_get (post_svg_body w h usvgTreeSize encodePng oracle mac svgBody
        store).store (macFileStem mac ++ SVG_EXT) = some [] ∧
    store_get (post_svg_body w h usvgTreeSize encodePng oracle mac svgBody
        store).store (macFileStem mac ++ PNG_EXT) =
      store_get store (macFileStem mac ++ PNG_EXT) := by
  have heq : post_svg_body w h usvgTreeSize encodePng oracle mac svgBody
      store = ⟨.err .badRequest,
        store_set store (macFileStem mac ++ SVG_EXT) [],
        [.createSvgFile], none⟩ := by
    simp [post_svg_body, hcr, hp]
  refine ⟨heq, ?_, ?_⟩
  · rw [heq]
    exact store_get_set_self _ _ _
  · rw [heq]
    refine store_get_set_ne _ _ _ _ ?_
    intro hc
    have := List.append_cancel_left hc
    simp [SVG_EXT, PNG_EXT] at this

/-- C7: with rasterization succeeding, the `.png` bytes are written
strictly before the `.svg` bytes; a failure of either write surfaces as
`InternalServerError` and the mutations already performed stay. -/
theorem post_svg_body_write_order (w h : Nat)
    (usvgTreeSize : List Char → Option (Nat × Nat))
    (encodePng : Nat → Nat → List Char) (oracle : FsOracle)
    (mac : MacBytes) (svgBody : List Char) (store : Store)
    (dw dh : Nat)
    (hcr : oracle.createOk = true)
    (hp : usvgTreeSize (wrapSvg w h svgBody) = some (dw, dh))
    (hw : dw ≠ 0) (hh : dh ≠ 0)
    (hr : oracle.renderOk = true) :
    (oracle.savePngOk = true → oracle.writeSvgOk = true →
      post_svg_body w h usvgTreeSize encodePng oracle mac svgBody store =
        ⟨.ok,
          store_set (store_set (store_set store
            (macFileStem mac ++ SVG_EXT) [])
            (macFileStem mac ++ PNG_EXT) (encodePng dw dh))
            (macFileStem mac ++ SVG_EXT) (wrapSvg w h svgBody),
          [.createSvgFile, .writePngFile, .writeSvgBytes], some (dw, dh)⟩) ∧
    (oracle.savePngOk = false →
      post_svg_body w h usvgTreeSize encodePng oracle mac svgBody store =
        ⟨.err .internalServerError,
          store_set store (macFileStem mac ++ SVG_EXT) [],
          [.createSvgFile], some (dw, dh)⟩) ∧
    (oracle.savePngOk = true → oracle.writeSvgOk = false →
      post_svg_body w h usvgTreeSize encodePng oracle mac svgBody store =
        ⟨.err .internalServerError,
          store_set (store_set store (macFileStem mac ++ SVG_EXT) [])
            (macFileStem mac ++ PNG_EXT) (encodePng dw dh),
          [.createSvgFile, .writePngFile], some (dw, dh)⟩) := by
  refine ⟨?_, ?_, ?_⟩ <;> intros <;>
    simp_all [post_svg_body]

/-- C6: under the rasterizer contract (the parsed screen size of the
wrapped document is the declared viewport, i.e. the configured display
geometry), the pixmap handed to the PNG encoder has exactly the
configured dimensions, and the stored `.png` is its encoding. -/
theorem post_svg_body_pixmap_dims (w h : Nat)
    (usvgTreeSize : List Char → Option (Nat × Nat))
    (encodePng : Nat → Nat → List Char) (oracle : FsOracle)
    (mac : MacBytes) (svgBody : List Char) (store : Store)
    (hcr : oracle.createOk = true)
    (hcontract : usvgTreeSize (wrapSvg w h svgBody) = some (w, h))
    (hw : w ≠ 0) (hh : h ≠ 0)
    (hr : oracle.renderOk = true) (hsp : oracle.savePngOk = true)
    (hws : oracle.writeSvgOk = true) :
    (post_svg_body w h usvgTreeSize encodePng oracle mac svgBody
        store).result = .ok ∧
    (post_svg_body w h usvgTreeSize encodePng oracle mac svgBody
        store).pixmapDims = some (w, h) ∧
    store_get (post_svg_body w h usvgTreeSize encodePng oracle mac svgBody
        store).store (macFileStem mac ++ PNG_EXT) = some (encodePng w h) := by
  have heq := (post_svg_body_write_order w h usvgTreeSize encodePng oracle
    mac svgBody store w h hcr hcontract hw hh hr).1 hsp hws
  rw [heq]
  refine ⟨rfl, rfl, ?_⟩
  rw [store_get_set_ne, store_get_set_self]
  intro hc
  have := List.append_cancel_left hc
  simp [SVG_EXT, PNG_EXT] at this

/-- C8: on success the stored `.svg` content is exactly the wrapped
document: the fixed envelope declaring viewport `0 0 w h` around the
caller's fragment, not the raw input. -/
theorem post_svg_body_stored_svg (w h : Nat)
    (usvgTreeSize : List Char → Option (Nat × Nat))
    (encodePng : Nat → Nat → List Char) (oracle : FsOracle)
    (mac : MacBytes) (svgBody : List Char) (store : Store)
    (dw dh : Nat)
    (hcr : oracle.createOk = true)
    (hp : usvgTreeSize (wrapSvg w h svgBody) = some (dw, dh))
    (hw : dw ≠ 0) (hh : dh ≠ 0)
    (hr : oracle.renderOk = true) (hsp : oracle.savePngOk = true)
    (hws : oracle.writeSvgOk = true) :
    (post_svg_body w h usvgTreeSize encodePng oracle mac svgBody
        store).result = .ok ∧
    store_get (post_svg_body w h usvgTreeSize encodePng oracle mac svgBody
        store).store (macFileStem mac ++ SVG_EXT) =
      some (("<svg xmlns=\"http://www.w3.org/2000/svg\" viewBox=\"0 0 ".data
        ++ (Nat.repr w).data ++ " ".data ++ (Nat.repr h).data ++ "\">".data)
        ++ svgBody ++ "</svg>".data) := by
  have heq := (post_svg_body_write_order w h usvgTreeSize encodePng oracle
    mac svgBody store dw dh hcr hp hw hh hr).1 hsp hws
  rw [heq]
  exact ⟨rfl, store_get_set_self _ _ _⟩

/-- C2 counterexample: a rejected document leaves the call with
`BadRequest`, yet the store is no longer equal to its pre-call state —
the `.svg` file has been truncated. -/
theorem post_svg_body_reject_modifies_store_cex :
    (post_svg_body 128 296 rejectSvgDoc pngEncDemo oracleAllOk mac0011
        "x".data storeWithOldSvg).result = .err .badRequest ∧
    (post_svg_body 128 296 rejectSvgDoc pngEncDemo oracleAllOk mac0011
        "x".data storeWithOldSvg).store ≠ storeWithOldSvg := by
  decide

/-- Witness for C2 (amended) at a concrete input. -/
theorem post_svg_body_reject_witness :
    post_svg_body 128 296 rejectSvgDoc pngEncDemo oracleAllOk mac0011
        "x".data storeWithOldSvg =
      ⟨.err .badRequest,
        store_set storeWithOldSvg (macFileStem mac0011 ++ SVG_EXT) [],
        [.createSvgFile], none⟩ ∧
    store_get (post_svg_body 128 296 rejectSvgDoc pngEncDemo oracleAllOk
        mac0011 "x".data storeWithOldSvg).store
      (macFileStem mac0011 ++ SVG_EXT) = some [] ∧
    store_get (post_svg_body 128 296 rejectSvgDoc pngEncDemo oracleAllOk
        mac0011 "x".data storeWithOldSvg).store
      (macFileStem mac0011 ++ PNG_EXT) =
      store_get storeWithOldSvg (macFileStem mac0011 ++ PNG_EXT) :=
  post_svg_body_reject 128 296 rejectSvgDoc pngEncDemo oracleAllOk mac0011
    "x".data storeWithOldSvg rfl rfl

/-- Witness for C4 at a concrete input: a store holding only the
`.png`; the first call succeeds, the immediate second call fails. -/
theorem delete_images_spec_witness :
    (delete_images mac0011 storeWithPng).1 = Except.ok () ∧
    (delete_images mac0011 (delete_images mac0011 storeWithPng).2).1 =
      Except.error AppError.notFound :=
  ⟨(delete_images_spec mac0011 storeWithPng).2.1
      (Or.inr (Or.inr (by decide))),
    (delete_images_spec mac0011 storeWithPng).2.2.2.2.2⟩

/-- Witness for C7 at a concrete input (the all-success ordering). -/
theorem post_svg_body_write_order_witness :
    post_svg_body 128 296 size128x296 pngEncDemo oracleAllOk mac0011
        "b".data [] =
      ⟨.ok,
        store_set (store_set (store_set []
          (macFileStem mac0011 ++ SVG_EXT) [])
          (macFileStem mac0011 ++ PNG_EXT) (pngEncDemo 128 296))
          (macFileStem mac0011 ++ SVG_EXT) (wrapSvg 128 296 "b".data),
        [.createSvgFile, .writePngFile, .writeSvgBytes],
        some (128, 296)⟩ :=
  (post_svg_body_write_order 128 296 size128x296 pngEncDemo oracleAllOk
    mac0011 "b".data [] 128 296 rfl rfl (by decide) (by decide) rfl).1
    rfl rfl

/-- Witness for C6 at the spec's 128×296 scenario. -/
theorem post_svg_body_pixmap_dims_witness :
    (post_svg_body 128 296 size128x296 pngEncDemo oracleAllOk mac0011
        "<circle cx=\"125\" cy=\"125\" r=\"75\" />".data []).result = .ok ∧
    (post_svg_body 128 296 size128x296 pngEncDemo oracleAllOk mac0011
        "<circle cx=\"125\" cy=\"125\" r=\"75\" />".data []).pixmapDims =
      some (128, 296) ∧
    store_get (post_svg_body 128 296 size128x296 pngEncDemo oracleAllOk
        mac0011 "<circle cx=\"125\" cy=\"125\" r=\"75\" />".data []).store
      (macFileStem mac0011 ++ PNG_EXT) = some (pngEncDemo 128 296) :=
  post_svg_body_pixmap_dims 128 296 size128x296 pngEncDemo oracleAllOk
    mac0011 "<circle cx=\"125\" cy=\"125\" r=\"75\" />".data [] rfl rfl
    (by decide) (by decide) rfl rfl rfl

/-- Witness for C8 at a concrete input. -/
theorem post_svg_body_stored_svg_witness :
    (post_svg_body 128 296 size128x296 pngEncDemo oracleAllOk mac0011
        "<rect />".data []).result = .ok ∧
    store_get (post_svg_body 128 296 size128x296 pngEncDemo oracleAllOk
        mac0011 "<rect />".data []).store (macFileStem mac0011 ++ SVG_EXT) =
      some (("<svg xmlns=\"http://www.w3.org/2000/svg\" viewBox=\"0 0 ".data
        ++ (Nat.repr 128).data ++ " ".data ++ (Nat.repr 296).data
        ++ "\">".data) ++ "<rect />".data ++ "</svg>".data) :=
  post_svg_body_stored_svg 128 296 size128x296 pngEncDemo oracleAllOk
    mac0011 "<rect />".data [] 128 296 rfl rfl (by decide) (by decide)
    rfl rfl rfl

/-! ## Character-level lemmas -/

theorem hexVal?_lt (c : Char) (d : Nat) (h : hexVal? c = some d) : d < 16 := by
  unfold hexVal? at h
  split_ifs at h with h1 h2 h3 <;>
    · injection h with h
      omega

theorem hexVal?_toNat_le (c : Char) (d : Nat) (h : hexVal? c = some d) :
    c.toNat ≤ 102 := by
  unfold hexVal? at h
  split_ifs at h with h1 h2 h3 <;> omega

theorem utf8Size_one_of_ascii (c : Char) (h : c.toNat ≤ 127) :
    c.utf8Size = 1 := by
  unfold Char.utf8Size
  have hle : c.val ≤ UInt32.ofNatCore 127 (by norm_num) := by
    rw [UInt32.le_def]
    exact_mod_cast h
  simp only [hle, if_true]

theorem hex_utf8Size_one (c : Char) (d : Nat) (h : hexVal? c = some d) :
    c.utf8Size = 1 :=
  utf8Size_one_of_ascii c (le_trans (hexVal?_toNat_le c d h) (by norm_num))

theorem pairOkB_utf8Size (c1 c2 : Char) (h : pairOkB (c1, c2) = true) :
    c1.utf8Size = 1 ∧ c2.utf8Size = 1 := by
  unfold pairOkB isHexDigitChar at h
  simp only [Bool.or_eq_true, Bool.and_eq_true] at h
  rcases h with ⟨h1, h2⟩ | ⟨h1, h2⟩
  · rw [Option.isSome_iff_exists] at h1 h2
    obtain ⟨d1, hd1⟩ := h1
    obtain ⟨d2, hd2⟩ := h2
    exact ⟨hex_utf8Size_one _ _ hd1, hex_utf8Size_one _ _ hd2⟩
  · rw [Option.isSome_iff_exists] at h2
    obtain ⟨d2, hd2⟩ := h2
    have h1' : c1 = '+' := by simpa using h1
    subst h1'
    exact ⟨by decide, hex_utf8Size_one _ _ hd2⟩

/-! ## `u8FromStrRadix16` on one- and two-character inputs -/

theorem hexDigitsVal?_single (c : Char) : hexDigitsVal? [c] = hexVal? c := by
  unfold hexDigitsVal?
  simp only [List.foldl]
  cases hv : hexVal? c with
  | none => rfl
  | some d =>
    have := hexVal?_lt c d hv
    simp only [Nat.zero_mul, Nat.zero_add]
    rw [if_pos (by omega)]

theorem u8_single (c : Char) : u8FromStrRadix16 [c] = hexVal? c := by
  simp only [u8FromStrRadix16]
  by_cases h : c = '+'
  · subst h
    simp only [if_pos trivial]
    decide
  · rw [if_neg h]
    exact hexDigitsVal?_single c

theorem hexDigitsVal?_pair (c1 c2 : Char) :
    hexDigitsVal? [c1, c2] =
      match hexVal? c1, hexVal? c2 with
      | some d1, some d2 => some (16 * d1 + d2)
      | _, _ => none := by
  unfold hexDigitsVal?
  simp only [List.foldl]
  cases hv1 : hexVal? c1 with
  | none =>
    cases hv2 : hexVal? c2 <;> simp
  | some d1 =>
    have hd1 := hexVal?_lt c1 d1 hv1
    simp only [Nat.zero_mul, Nat.zero_add]
    rw [if_pos (by omega)]
    cases hv2 : hexVal? c2 with
    | none => simp
    | some d2 =>
      have hd2 := hexVal?_lt c2 d2 hv2
      simp only []
      rw [if_pos (by omega), Nat.mul_comm d1 16]

theorem u8_pair (c1 c2 : Char) :
    u8FromStrRadix16 [c1, c2] =
      if pairOkB (c1, c2) then some (pairValSpec (c1, c2)) else none := by
  simp only [u8FromStrRadix16]
  by_cases h : c1 = '+'
  · subst h
    simp only [if_pos trivial]
    rw [hexDigitsVal?_single]
    unfold pairOkB pairValSpec isHexDigitChar hexValD
    cases hv2 : hexVal? c2 with
    | none => simp [hv2]
    | some d2 => simp [hv2]
  · rw [if_neg h]
    rw [hexDigitsVal?_pair]
    unfold pairOkB pairValSpec isHexDigitChar hexValD
    cases hv1 : hexVal? c1 with
    | none =>
      cases hv2 : hexVal? c2 <;> simp [hv1, hv2, h]
    | some d1 =>
      cases hv2 : hexVal? c2 <;> simp [hv1, hv2, h]

/-! ## Byte-slicing lemmas -/

theorem utf8Len_cons (c : Char) (cs : List Char) :
    utf8Len (c :: cs) = c.utf8Size + utf8Len cs := by
  simp [utf8Len]

theorem utf8Len_zero (s : List Char) (h : utf8Len s = 0) : s = [] := by
  cases s with
  | nil => rfl
  | cons c cs =>
    rw [utf8Len_cons] at h
    have := Char.utf8Size_pos c
    omega

theorem dropBytes_succ_cons (n : Nat) (c : Char) (cs : List Char) :
    dropBytes (n + 1) (c :: cs) =
      if c.utf8Size ≤ n + 1 then dropBytes (n + 1 - c.utf8Size) cs
      else none := rfl

theorem takeBytes_succ_cons (n : Nat) (c : Char) (cs : List Char) :
    takeBytes (n + 1) (c :: cs) =
      if c.utf8Size ≤ n + 1 then (takeBytes (n + 1 - c.utf8Size) cs).map (c :: ·)
      else none := rfl

theorem dropBytes_ascii (n : Nat) (c : Char) (cs : List Char)
    (h : c.utf8Size = 1) : dropBytes (n + 1) (c :: cs) = dropBytes n cs := by
  rw [dropBytes_succ_cons, h, if_pos (by omega), Nat.add_sub_cancel]

theorem takeBytes_ascii (n : Nat) (c : Char) (cs : List Char)
    (h : c.utf8Size = 1) :
    takeBytes (n + 1) (c :: cs) = (takeBytes n cs).map (c :: ·) := by
  rw [takeBytes_succ_cons, h, if_pos (by omega), Nat.add_sub_cancel]

theorem takeBytes_zero (s : List Char) : takeBytes 0 s = some [] := by
  cases s <;> rfl

theorem dropBytes_chain (m n : Nat) (s t : List Char)
    (h : dropBytes m s = some t) : dropBytes (m + n) s = dropBytes n t := by
  induction s generalizing m with
  | nil =>
    cases m with
    | zero =>
      injection h with h
      subst h
      rw [Nat.zero_add]
    | succ m => exact absurd h (by simp [dropBytes])
  | cons c cs ih =>
    cases m with
    | zero =>
      injection h with h
      subst h
      rw [Nat.zero_add]
    | succ m =>
      rw [dropBytes_succ_cons] at h
      by_cases hle : c.utf8Size ≤ m + 1
      · rw [if_pos hle] at h
        have h2 := ih (m + 1 - c.utf8Size) h
        have e : m + 1 + n = (m + n) + 1 := by omega
        rw [e, dropBytes_succ_cons, if_pos (by omega)]
        have e2 : m + n + 1 - c.utf8Size = m + 1 - c.utf8Size + n := by
          omega
        rw [e2, h2]
      · rw [if_neg hle] at h
        exact absurd h (by simp)

theorem takeBytes_one_shape (s l : List Char) (h : takeBytes 1 s = some l) :
    ∃ c cs, s = c :: cs ∧ l = [c] ∧ c.utf8Size = 1 := by
  cases s with
  | nil => exact absurd h (by simp [takeBytes])
  | cons c cs =>
    unfold takeBytes at h
    have hpos := Char.utf8Size_pos c
    by_cases hle : c.utf8Size ≤ 1
    · rw [if_pos hle] at h
      have hone : c.utf8Size = 1 := by omega
      rw [hone] at h
      simp only [Nat.sub_self, takeBytes_zero, Option.map_some] at h
      injection h with h
      exact ⟨c, cs, rfl, h.symm, hone⟩
    · rw [if_neg hle] at h
      exact absurd h (by simp)

theorem takeBytes_two_shape (s l : List Char) (h : takeBytes 2 s = some l) :
    (∃ c cs, s = c :: cs ∧ l = [c] ∧ c.utf8Size = 2) ∨
    (∃ c1 c2 cs, s = c1 :: c2 :: cs ∧ l = [c1, c2] ∧
      c1.utf8Size = 1 ∧ c2.utf8Size = 1) := by
  cases s with
  | nil => exact absurd h (by simp [takeBytes])
  | cons c cs =>
    unfold takeBytes at h
    have hpos := Char.utf8Size_pos c
    by_cases hle : c.utf8Size ≤ 2
    · rw [if_pos hle] at h
      have : c.utf8Size = 1 ∨ c.utf8Size = 2 := by omega
      rcases this with hone | htwo
      · rw [hone] at h
        cases hcs : takeBytes 1 cs with
        | none => rw [hcs] at h; exact absurd h (by simp)
        | some lx =>
          rw [hcs] at h
          have h2 : c :: lx = l := by simpa using h
          obtain ⟨c2, cs2, hcseq, hleq, hsize2⟩ := takeBytes_one_shape cs lx hcs
          right
          exact ⟨c, c2, cs2, by rw [hcseq], by rw [← h2, hleq], hone, hsize2⟩
      · rw [htwo] at h
        simp only [Nat.sub_self, takeBytes_zero, Option.map_some] at h
        injection h with h
        left
        exact ⟨c, cs, rfl, h.symm, htwo⟩
    · rw [if_neg hle] at h
      exact absurd h (by simp)

theorem strGet_window (s : List Char) (i : Nat) :
    strGet s i (i + 2) = (dropBytes i s).bind (takeBytes 2) := by
  unfold strGet
  rw [Nat.add_sub_cancel_left]

theorem strGet_zero_two (s : List Char) : strGet s 0 2 = takeBytes 2 s := by
  unfold strGet
  cases s <;> rfl

theorem strGet_shift (c1 c2 : Char) (cs : List Char) (k : Nat)
    (h1 : c1.utf8Size = 1) (h2 : c2.utf8Size = 1) :
    strGet (c1 :: c2 :: cs) (2 * (k + 1)) (2 * (k + 1) + 2) =
      strGet cs (2 * k) (2 * k + 2) := by
  rw [strGet_window, strGet_window]
  have e1 : 2 * (k + 1) = (2 * k + 1) + 1 := by ring
  rw [e1, dropBytes_ascii _ _ _ h1, dropBytes_ascii _ _ _ h2]

/-! ## Pair-decomposition lemmas -/

theorem pairsOfList_nil_inv (s : List Char) (h : pairsOfList s = some []) :
    s = [] := by
  match s with
  | [] => rfl
  | [x] => exact absurd h (by simp [pairsOfList])
  | c1 :: c2 :: r =>
    exfalso
    unfold pairsOfList at h
    cases hr : pairsOfList r with
    | none => rw [hr] at h; exact absurd h (by simp)
    | some qs => rw [hr] at h; simp at h

theorem pairsOfList_cons_inv (s : List Char) (p : Char × Char)
    (ps : List (Char × Char)) (h : pairsOfList s = some (p :: ps)) :
    ∃ cs, s = p.1 :: p.2 :: cs ∧ pairsOfList cs = some ps := by
  match s with
  | [] => exact absurd h (by simp [pairsOfList])
  | [x] => exact absurd h (by simp [pairsOfList])
  | c1 :: c2 :: r =>
    unfold pairsOfList at h
    cases hr : pairsOfList r with
    | none => rw [hr] at h; exact absurd h (by simp)
    | some qs =>
      rw [hr] at h
      have h2 : (c1, c2) :: qs = p :: ps := by simpa using h
      injection h2 with ha hb
      refine ⟨r, ?_, ?_⟩
      · rw [← ha]
      · rw [hr, hb]

theorem pairsOfList_flat (ps : List (Char × Char)) :
    ∀ s, pairsOfList s = some ps →
      s = ps.flatMap (fun p => [p.1, p.2]) := by
  induction ps with
  | nil =>
    intro s h
    rw [pairsOfList_nil_inv s h]
    rfl
  | cons p ps ih =>
    intro s h
    obtain ⟨cs, hs, hcs⟩ := pairsOfList_cons_inv s p ps h
    rw [hs, ih cs hcs]
    rfl

theorem windows_to_pairs : ∀ (n : Nat) (s : List Char),
    (∀ k, k < n →
      ((strGet s (2 * k) (2 * k + 2)).bind u8FromStrRadix16).isSome = true) →
    utf8Len s = 2 * n →
    ∃ ps, pairsOfList s = some ps ∧ ps.length = n ∧
      ∀ p ∈ ps, pairOkB p = true := by
  intro n
  induction n with
  | zero =>
    intro s _ hlen
    rw [utf8Len_zero s (by simpa using hlen)]
    exact ⟨[], rfl, rfl, by simp⟩
  | succ n ih =>
    intro s hwin hlen
    have h0 := hwin 0 (Nat.succ_pos n)
    have e0 : strGet s (2 * 0) (2 * 0 + 2) = takeBytes 2 s := by
      rw [show 2 * 0 = 0 by norm_num, show 0 + 2 = 2 by norm_num]
      exact strGet_zero_two s
    rw [e0] at h0
    cases ht : takeBytes 2 s with
    | none => rw [ht] at h0; exact absurd h0 (by simp)
    | some l =>
      rw [ht] at h0
      simp only [Option.some_bind] at h0
      rw [Option.isSome_iff_exists] at h0
      obtain ⟨v, hv⟩ := h0
      rcases takeBytes_two_shape s l ht with
        ⟨c, cs, hs, hl, hsize⟩ | ⟨c1, c2, cs, hs, hl, hs1, hs2⟩
      · exfalso
        rw [hl, u8_single] at hv
        have := hex_utf8Size_one c v hv
        omega
      · rw [hl, u8_pair] at hv
        by_cases hok : pairOkB (c1, c2) = true
        · have hlen2 : utf8Len cs = 2 * n := by
            rw [hs, utf8Len_cons, utf8Len_cons, hs1, hs2] at hlen
            omega
          have hwin2 : ∀ k, k < n →
              ((strGet cs (2 * k) (2 * k + 2)).bind
                u8FromStrRadix16).isSome = true := by
            intro k hk
            have := hwin (k + 1) (by omega)
            rw [hs, strGet_shift c1 c2 cs k hs1 hs2] at this
            exact this
          obtain ⟨ps, hps, hpl, hpok⟩ := ih cs hwin2 hlen2
          refine ⟨(c1, c2) :: ps, ?_, by simp [hpl], ?_⟩
          · rw [hs]
            unfold pairsOfList
            rw [hps]
            rfl
          · intro p hp
            rcases List.mem_cons.mp hp with hp | hp
            · rw [hp]; exact hok
            · exact hpok p hp
        · rw [if_neg hok] at hv
          exact absurd hv (by simp)

theorem pairs_to_windows : ∀ (ps : List (Char × Char)) (s : List Char),
    pairsOfList s = some ps → (∀ p ∈ ps, pairOkB p = true) →
    utf8Len s = 2 * ps.length ∧
    ∀ k, k < ps.length →
      (strGet s (2 * k) (2 * k + 2)).bind u8FromStrRadix16 =
        some (pairValSpec (ps.getD k ('0', '0'))) := by
  intro ps
  induction ps with
  | nil =>
    intro s h _
    rw [pairsOfList_nil_inv s h]
    exact ⟨rfl, fun k hk => absurd hk (by simp)⟩
  | cons p ps ih =>
    intro s h hok
    obtain ⟨cs, hs, hcs⟩ := pairsOfList_cons_inv s p ps h
    have hpok : pairOkB p = true := hok p (List.mem_cons_self p ps)
    have hpok2 : pairOkB (p.1, p.2) = true := by
      rw [Prod.mk.eta]
      exact hpok
    obtain ⟨h1, h2⟩ := pairOkB_utf8Size p.1 p.2 hpok2
    have htail := ih cs hcs (fun q hq => hok q (List.mem_cons_of_mem p hq))
    subst hs
    constructor
    · rw [utf8Len_cons, utf8Len_cons, htail.1, h1, h2, List.length_cons]
      ring
    · intro k hk
      cases k with
      | zero =>
        have e0 : strGet (p.1 :: p.2 :: cs) (2 * 0) (2 * 0 + 2) =
            takeBytes 2 (p.1 :: p.2 :: cs) := by
          rw [show 2 * 0 = 0 by norm_num, show 0 + 2 = 2 by norm_num]
          exact strGet_zero_two _
        rw [e0]
        have e1 : takeBytes 2 (p.1 :: p.2 :: cs) = some [p.1, p.2] := by
          rw [show (2 : Nat) = 1 + 1 by norm_num,
            takeBytes_ascii _ _ _ h1,
            show (1 : Nat) = 0 + 1 by norm_num,
            takeBytes_ascii _ _ _ h2, takeBytes_zero]
          rfl
        rw [e1]
        simp only [Option.some_bind]
        rw [u8_pair, if_pos hpok2]
        rw [Prod.mk.eta]
        rfl
      | succ k =>
        rw [strGet_shift p.1 p.2 cs k h1 h2]
        rw [List.length_cons] at hk
        exact htail.2 k (by omega)

/-! ## Generic list helper lemmas -/

theorem filterMap_eq_map_of_all_some {α β : Type} (l : List α)
    (g : α → Option β) (f : α → β) (h : ∀ x ∈ l, g x = some (f x)) :
    l.filterMap g = l.map f := by
  induction l with
  | nil => rfl
  | cons a l ih =>
    rw [List.filterMap_cons, h a (List.mem_cons_self a l), List.map_cons,
      ih (fun x hx => h x (List.mem_cons_of_mem a hx))]

theorem all_some_of_filterMap_length {α β : Type} (l : List α)
    (g : α → Option β) (h : (l.filterMap g).length = l.length) :
    ∀ x ∈ l, (g x).isSome = true := by
  induction l with
  | nil => intro x hx; cases hx
  | cons a l ih =>
    intro x hx
    rw [List.filterMap_cons] at h
    cases hg : g a with
    | none =>
      simp only [hg, List.length_cons] at h
      have hle := List.length_filterMap_le g l
      omega
    | some b =>
      simp only [hg, List.length_cons] at h
      rcases List.mem_cons.mp hx with hx | hx
      · rw [hx, hg]; rfl
      · exact ih (by omega) x hx

theorem getD_range_map {α β : Type} (l : List α) (d : α) (f : α → β) :
    (List.range l.length).map (fun k => f (l.getD k d)) = l.map f := by
  induction l with
  | nil => rfl
  | cons a l ih =>
    rw [List.length_cons, List.range_succ_eq_map, List.map_cons,
      List.map_map]
    have : ((fun k => f ((a :: l).getD k d)) ∘ Nat.succ) =
        (fun k => f (l.getD k d)) := by
      funext k
      rfl
    rw [this, ih]
    rfl

/-! ## Characterization of `EpdMac::from_str` -/

theorem epdMacFromStr_complete (s : List Char) (ps : List (Char × Char))
    (hps : pairsOfList s = some ps) (hlen : ps.length = 8)
    (hok : ∀ p ∈ ps, pairOkB p = true) :
    epdMacFromStr s = some (ps.map pairValSpec) := by
  obtain ⟨hutf, hwin⟩ := pairs_to_windows ps s hps hok
  rw [hlen] at hutf hwin
  unfold epdMacFromStr MAC_LEN
  rw [if_neg (by omega)]
  have hfm : (List.range 8).filterMap
      (fun k => (strGet s (2 * k) (2 * k + 2)).bind u8FromStrRadix16) =
      (List.range 8).map (fun k => pairValSpec (ps.getD k ('0', '0'))) := by
    apply filterMap_eq_map_of_all_some
    intro k hk
    exact hwin k (List.mem_range.mp hk)
  simp only []
  rw [hfm, List.length_map, List.length_range, if_pos rfl]
  have := getD_range_map ps ('0', '0') pairValSpec
  rw [hlen] at this
  rw [this]

theorem epdMacFromStr_sound (s : List Char)
    (h : (epdMacFromStr s).isSome = true) :
    ∃ ps, pairsOfList s = some ps ∧ ps.length = 8 ∧
      ∀ p ∈ ps, pairOkB p = true := by
  unfold epdMacFromStr MAC_LEN at h
  by_cases hlen : utf8Len s = 16
  · rw [if_neg (by omega)] at h
    simp only [] at h
    set bytes := (List.range 8).filterMap
      (fun k => (strGet s (2 * k) (2 * k + 2)).bind u8FromStrRadix16)
      with hbytes
    by_cases hbl : bytes.length = 8
    · have hall := all_some_of_filterMap_length (List.range 8)
        (fun k => (strGet s (2 * k) (2 * k + 2)).bind u8FromStrRadix16)
        (by rw [← hbytes, hbl, List.length_range])
      exact windows_to_pairs 8 s
        (fun k hk => hall k (List.mem_range.mpr hk)) (by omega)
    · rw [if_neg hbl] at h
      exact absurd h (by simp)
  · rw [if_pos (by omega)] at h
    exact absurd h (by simp)

/-- C3 (amended): `EpdMac::from_str` succeeds exactly when the input
splits into 8 consecutive character pairs, each accepted by
`u8::from_str_radix(_, 16)` — two hex digits, or `+` followed by one
hex digit; on success the pairs decode left-to-right, a `+` pair
contributing the value of its single digit.  (The original claim's
hex-only characterization fails on `+` pairs.) -/
theorem epdMacFromStr_pairs_spec (s : List Char) :
    ((epdMacFromStr s).isSome = true ↔
      ∃ ps, pairsOfList s = some ps ∧ ps.length = 8 ∧
        ∀ p ∈ ps, pairOkB p = true) ∧
    ∀ ps, pairsOfList s = some ps → ps.length = 8 →
      (∀ p ∈ ps, pairOkB p = true) →
      epdMacFromStr s = some (ps.map pairValSpec) := by
  refine ⟨⟨epdMacFromStr_sound s, ?_⟩,
    fun ps hps hlen hok => epdMacFromStr_complete s ps hps hlen hok⟩
  rintro ⟨ps, hps, hlen, hok⟩
  rw [epdMacFromStr_complete s ps hps hlen hok]
  rfl

/-- C3 counterexample: `"+1+2+3+4+5+6+7+8"` has length 16 and contains
the non-hex character `+`, yet `from_str` succeeds. -/
theorem epdMacFromStr_plus_cex :
    epdMacFromStr "+1+2+3+4+5+6+7+8".data =
      some [1, 2, 3, 4, 5, 6, 7, 8] ∧
    "+1+2+3+4+5+6+7+8".data.length = 16 ∧
    '+' ∈ "+1+2+3+4+5+6+7+8".data ∧
    isHexDigitChar '+' = false := by
  decide

/-- Witness for C3 (amended) at the repository's own test vector. -/
theorem epdMacFromStr_pairs_spec_witness :
    epdMacFromStr "aabbccdd00112233".data =
      some ([('a', 'a'), ('b', 'b'), ('c', 'c'), ('d', 'd'),
        ('0', '0'), ('1', '1'), ('2', '2'), ('3', '3')].map pairValSpec) :=
  (epdMacFromStr_pairs_spec "aabbccdd00112233".data).2
    [('a', 'a'), ('b', 'b'), ('c', 'c'), ('d', 'd'),
      ('0', '0'), ('1', '1'), ('2', '2'), ('3', '3')]
    (by decide) (by decide) (by decide)

/-! ## `get_macs` lemmas -/

theorem sequenceOpt_map_of_all {α β : Type} (l : List α) (f : α → Option β)
    (h : ∀ x ∈ l, (f x).isSome = true) :
    sequenceOpt (l.map f) = some (l.filterMap f) := by
  induction l with
  | nil => rfl
  | cons a l ih =>
    have ha := h a (List.mem_cons_self a l)
    rw [Option.isSome_iff_exists] at ha
    obtain ⟨b, hb⟩ := ha
    rw [List.map_cons, hb, List.filterMap_cons, hb]
    unfold sequenceOpt
    rw [ih (fun x hx => h x (List.mem_cons_of_mem a hx))]
    rfl

theorem sequenceOpt_map_of_none {α β : Type} (l : List α) (f : α → Option β)
    (x : α) (hx : x ∈ l) (hn : f x = none) :
    sequenceOpt (l.map f) = none := by
  induction l with
  | nil => cases hx
  | cons a l ih =>
    rw [List.map_cons]
    cases ha : f a with
    | none => rfl
    | some b =>
      unfold sequenceOpt
      rcases List.mem_cons.mp hx with hx | hx
      · rw [hx] at hn
        rw [hn] at ha
        cases ha
      · rw [ih hx]
        rfl

/-- C1 (amended): directory-open failure yields the server error;
entries that are I/O errors, lack the `png` extension, or have no stem
are skipped; but if every kept `.png` stem decodes the call returns
exactly those addresses, while a single undecodable `.png` stem fails
the whole call with the same server error (it is not skipped). -/
theorem get_macs_spec :
    (get_macs DirListing.openErr =
      Except.error AppError.internalServerError) ∧
    (∀ rest, get_macs (DirListing.entries (none :: rest)) =
      get_macs (DirListing.entries rest)) ∧
    (∀ name rest, (∀ e, rustExtension name = some e → e ≠ "png".data) →
      get_macs (DirListing.entries (some name :: rest)) =
        get_macs (DirListing.entries rest)) ∧
    (∀ ents, (∀ st ∈ pngStems ents, (epdMacFromStr st).isSome = true) →
      get_macs (DirListing.entries ents) =
        Except.ok ((pngStems ents).filterMap epdMacFromStr)) ∧
    (∀ ents st, st ∈ pngStems ents → epdMacFromStr st = none →
      get_macs (DirListing.entries ents) =
        Except.error AppError.internalServerError) := by
  refine ⟨rfl, ?_, ?_, ?_, ?_⟩
  · intro rest
    rfl
  · intro name rest hne
    have h1 : pngStems (some name :: rest) = pngStems rest := by
      unfold pngStems
      have h2 : List.filterMap id (some name :: rest) =
          name :: List.filterMap id rest := rfl
      rw [h2, List.filterMap_cons]
      cases he : rustExtension name with
      | none => rfl
      | some e =>
        simp only [he]
        rw [if_neg (hne e he)]
    simp only [get_macs]
    rw [h1]
  · intro ents hall
    simp only [get_macs]
    rw [sequenceOpt_map_of_all _ _ hall]
  · intro ents st hmem hnone
    simp only [get_macs]
    rw [sequenceOpt_map_of_none _ epdMacFromStr st hmem hnone]

/-- C1 counterexample: one entry `foo.png` whose stem fails to decode
makes the whole call fail (with the same error as a directory-open
failure) instead of being skipped. -/
theorem get_macs_badstem_cex :
    get_macs (DirListing.entries [some "foo.png".data]) =
      Except.error AppError.internalServerError ∧
    rustExtension "foo.png".data = some "png".data ∧
    epdMacFromStr "foo".data = none :=
  ⟨rfl, by decide, by decide⟩

/-- Witness for C1 (amended) on the repository's own test fixture. -/
theorem get_macs_spec_witness :
    get_macs (DirListing.entries [some "0011223344556677.png".data, none,
        some "aabbccddeeffaabb.png".data,
        some "aabbccddeeffaabb.svg".data]) =
      Except.ok ((pngStems [some "0011223344556677.png".data, none,
        some "aabbccddeeffaabb.png".data,
        some "aabbccddeeffaabb.svg".data]).filterMap epdMacFromStr) :=
  get_macs_spec.2.2.2.1 [some "0011223344556677.png".data, none,
    some "aabbccddeeffaabb.png".data, some "aabbccddeeffaabb.svg".data]
    (by decide)

/-! ## Uppercasing and formatting lemmas -/

theorem hexDigitUpper_of_hexVal (c : Char) (d : Nat) (h : hexVal? c = some d) :
    hexDigitUpper d = asciiToUpper c := by
  unfold hexVal? at h
  split_ifs at h with h1 h2 h3
  · injection h with h
    subst h
    have hu : asciiToUpper c = c := by
      unfold asciiToUpper
      rw [if_neg (by omega)]
    have hd : hexDigitUpper (c.toNat - 48) = Char.ofNat c.toNat := by
      unfold hexDigitUpper
      rw [if_pos (by omega)]
      congr 1
      omega
    rw [hu, hd, Char.ofNat_toNat]
  · injection h with h
    subst h
    have hu : asciiToUpper c = Char.ofNat (c.toNat - 32) := by
      unfold asciiToUpper
      rw [if_pos (by omega)]
    have hd : hexDigitUpper (c.toNat - 87) =
        Char.ofNat (55 + (c.toNat - 87)) := by
      unfold hexDigitUpper
      rw [if_neg (by omega)]
    rw [hu, hd]
    congr 1
    omega
  · injection h with h
    subst h
    have hu : asciiToUpper c = c := by
      unfold asciiToUpper
      rw [if_neg (by omega)]
    have hd : hexDigitUpper (c.toNat - 55) =
        Char.ofNat (55 + (c.toNat - 55)) := by
      unfold hexDigitUpper
      rw [if_neg (by omega)]
    rw [hu, hd]
    have e : 55 + (c.toNat - 55) = c.toNat := by omega
    rw [e, Char.ofNat_toNat]

theorem hexVal?_hexDigitUpper : ∀ d, d < 16 →
    hexVal? (hexDigitUpper d) = some d := by
  decide

theorem hexDigitUpper_ne_plus : ∀ d, d < 16 → hexDigitUpper d ≠ '+' := by
  decide

theorem hexVal?_asciiToUpper (c : Char) (d : Nat) (h : hexVal? c = some d) :
    hexVal? (asciiToUpper c) = some d := by
  rw [← hexDigitUpper_of_hexVal c d h]
  exact hexVal?_hexDigitUpper d (hexVal?_lt c d h)

theorem hexVal?_ne_plus (c : Char) (d : Nat) (h : hexVal? c = some d) :
    c ≠ '+' := by
  intro hc
  subst hc
  rw [show hexVal? '+' = none from by decide] at h
  cases h

theorem pairValSpec_hex (p : Char × Char) (d1 d2 : Nat)
    (h1 : hexVal? p.1 = some d1) (h2 : hexVal? p.2 = some d2) :
    pairValSpec p = 16 * d1 + d2 := by
  unfold pairValSpec hexValD
  rw [if_neg (hexVal?_ne_plus p.1 d1 h1), h1, h2]
  rfl

theorem byteHexUpper_pair (d1 d2 : Nat) (h2 : d2 < 16) :
    byteHexUpper (16 * d1 + d2) = [hexDigitUpper d1, hexDigitUpper d2] := by
  unfold byteHexUpper
  have e1 : (16 * d1 + d2) / 16 = d1 := by omega
  have e2 : (16 * d1 + d2) % 16 = d2 := by omega
  rw [e1, e2]

theorem byteHexUpper_pairValSpec (p : Char × Char) (d1 d2 : Nat)
    (h1 : hexVal? p.1 = some d1) (h2 : hexVal? p.2 = some d2) :
    byteHexUpper (pairValSpec p) = [asciiToUpper p.1, asciiToUpper p.2] := by
  rw [pairValSpec_hex p d1 d2 h1 h2,
    byteHexUpper_pair d1 d2 (hexVal?_lt _ _ h2),
    hexDigitUpper_of_hexVal p.1 d1 h1, hexDigitUpper_of_hexVal p.2 d2 h2]

theorem fmt_map_pairValSpec (ps : List (Char × Char))
    (hhex : ∀ p ∈ ps, ∃ d1 d2,
      hexVal? p.1 = some d1 ∧ hexVal? p.2 = some d2) :
    epdMacToString (ps.map pairValSpec) =
      (ps.flatMap fun p => [p.1, p.2]).map asciiToUpper := by
  induction ps with
  | nil => rfl
  | cons p ps ih =>
    obtain ⟨d1, d2, h1, h2⟩ := hhex p (List.mem_cons_self p ps)
    have hi := ih (fun q hq => hhex q (List.mem_cons_of_mem p hq))
    unfold epdMacToString at hi ⊢
    rw [List.map_cons, List.flatMap_cons, List.flatMap_cons,
      byteHexUpper_pairValSpec p d1 d2 h1 h2, List.map_append, hi]
    rfl

theorem pairsOfList_of_length : ∀ (n : Nat) (s : List Char),
    s.length = 2 * n → ∃ ps, pairsOfList s = some ps ∧ ps.length = n := by
  intro n
  induction n with
  | zero =>
    intro s h
    have hs : s = [] := List.length_eq_zero.mp (by omega)
    subst hs
    exact ⟨[], rfl, rfl⟩
  | succ n ih =>
    intro s h
    match s with
    | [] => simp at h
    | [x] => simp at h; omega
    | c1 :: c2 :: r =>
      have hr : r.length = 2 * n := by
        simp only [List.length_cons] at h
        omega
      obtain ⟨ps, hps, hpl⟩ := ih r hr
      refine ⟨(c1, c2) :: ps, ?_, by simp [hpl]⟩
      unfold pairsOfList
      rw [hps]
      rfl

theorem mem_of_pairsOfList (s : List Char) (ps : List (Char × Char))
    (h : pairsOfList s = some ps) (p : Char × Char) (hp : p ∈ ps) :
    p.1 ∈ s ∧ p.2 ∈ s := by
  rw [pairsOfList_flat ps s h]
  exact ⟨List.mem_flatMap.mpr ⟨p, hp, by simp⟩,
    List.mem_flatMap.mpr ⟨p, hp, by simp⟩⟩

theorem pairsOfList_map (f : Char → Char) (ps : List (Char × Char)) :
    ∀ s, pairsOfList s = some ps →
      pairsOfList (s.map f) = some (ps.map fun p => (f p.1, f p.2)) := by
  induction ps with
  | nil =>
    intro s h
    rw [pairsOfList_nil_inv s h]
    rfl
  | cons p ps ih =>
    intro s h
    obtain ⟨cs, hs, hcs⟩ := pairsOfList_cons_inv s p ps h
    subst hs
    show pairsOfList (f p.1 :: f p.2 :: cs.map f) = _
    unfold pairsOfList
    rw [ih cs hcs]
    rfl

/-! ## C10 and C5 -/

/-- C10: `parse(format(m)) = m` for every 8-byte address value. -/
theorem epdMac_parse_format_roundtrip (m : MacBytes) (h8 : m.length = 8)
    (hb : ∀ b ∈ m, b < 256) :
    epdMacFromStr (epdMacToString m) = some m := by
  have hps : pairsOfList (epdMacToString m) =
      some (m.map fun b => (hexDigitUpper (b / 16), hexDigitUpper (b % 16))) := by
    clear h8 hb
    induction m with
    | nil => rfl
    | cons b r ih =>
      show pairsOfList (hexDigitUpper (b / 16) :: hexDigitUpper (b % 16) ::
        epdMacToString r) = _
      unfold pairsOfList
      rw [ih]
      rfl
  have hok : ∀ p ∈ m.map
      (fun b => (hexDigitUpper (b / 16), hexDigitUpper (b % 16))),
      pairOkB p = true := by
    intro p hp
    rw [List.mem_map] at hp
    obtain ⟨b, hbm, hbp⟩ := hp
    have hblt := hb b hbm
    subst hbp
    unfold pairOkB isHexDigitChar
    rw [hexVal?_hexDigitUpper (b / 16) (by omega),
      hexVal?_hexDigitUpper (b % 16) (by omega)]
    rfl
  rw [epdMacFromStr_complete _ _ hps (by rw [List.length_map, h8]) hok,
    List.map_map]
  congr 1
  have : ∀ b ∈ m, (pairValSpec ∘ fun b =>
      (hexDigitUpper (b / 16), hexDigitUpper (b % 16))) b = id b := by
    intro b hbm
    have hblt := hb b hbm
    show pairValSpec (hexDigitUpper (b / 16), hexDigitUpper (b % 16)) = b
    rw [pairValSpec_hex _ (b / 16) (b % 16)
      (hexVal?_hexDigitUpper (b / 16) (by omega))
      (hexVal?_hexDigitUpper (b % 16) (by omega))]
    omega
  rw [List.map_congr_left this, List.map_id]

/-- Witness for C10 at a concrete address. -/
theorem epdMac_parse_format_roundtrip_witness :
    epdMacFromStr (epdMacToString macAABB) = some macAABB :=
  epdMac_parse_format_roundtrip macAABB rfl (by decide)

/-- C5: for a 16-hex-character string `s`, `parse` succeeds,
`format(parse(s))` is `s` uppercased, and `parse ∘ format` applied to
that result returns the same address again (idempotence). -/
theorem format_parse_uppercases (s : List Char) (hlen : s.length = 16)
    (hhex : ∀ c ∈ s, isHexDigitChar c = true) :
    ∃ m, epdMacFromStr s = some m ∧
      epdMacToString m = s.map asciiToUpper ∧
      epdMacFromStr (s.map asciiToUpper) = some m := by
  obtain ⟨ps, hps, hpl⟩ := pairsOfList_of_length 8 s (by omega)
  have hhex' : ∀ p ∈ ps, ∃ d1 d2,
      hexVal? p.1 = some d1 ∧ hexVal? p.2 = some d2 := by
    intro p hp
    obtain ⟨hm1, hm2⟩ := mem_of_pairsOfList s ps hps p hp
    have hx1 := hhex p.1 hm1
    have hx2 := hhex p.2 hm2
    unfold isHexDigitChar at hx1 hx2
    rw [Option.isSome_iff_exists] at hx1 hx2
    obtain ⟨d1, h1⟩ := hx1
    obtain ⟨d2, h2⟩ := hx2
    exact ⟨d1, d2, h1, h2⟩
  have hok : ∀ p ∈ ps, pairOkB p = true := by
    intro p hp
    obtain ⟨d1, d2, h1, h2⟩ := hhex' p hp
    unfold pairOkB isHexDigitChar
    rw [h1, h2]
    rfl
  refine ⟨ps.map pairValSpec,
    epdMacFromStr_complete s ps hps hpl hok, ?_, ?_⟩
  · rw [fmt_map_pairValSpec ps hhex', ← pairsOfList_flat ps s hps]
  · have hps2 := pairsOfList_map asciiToUpper ps s hps
    have hok2 : ∀ p ∈ ps.map (fun p => (asciiToUpper p.1, asciiToUpper p.2)),
        pairOkB p = true := by
      intro q hq
      rw [List.mem_map] at hq
      obtain ⟨p, hp, hpq⟩ := hq
      obtain ⟨d1, d2, h1, h2⟩ := hhex' p hp
      subst hpq
      unfold pairOkB isHexDigitChar
      rw [hexVal?_asciiToUpper p.1 d1 h1, hexVal?_asciiToUpper p.2 d2 h2]
      rfl
    rw [epdMacFromStr_complete _ _ hps2
      (by rw [List.length_map, hpl]) hok2, List.map_map]
    congr 1
    apply List.map_congr_left
    intro p hp
    obtain ⟨d1, d2, h1, h2⟩ := hhex' p hp
    show pairValSpec (asciiToUpper p.1, asciiToUpper p.2) = pairValSpec p
    rw [pairValSpec_hex _ d1 d2 (hexVal?_asciiToUpper p.1 d1 h1)
      (hexVal?_asciiToUpper p.2 d2 h2),
      pairValSpec_hex p d1 d2 h1 h2]

/-- Witness for C5 at the repository's own test vector. -/
theorem format_parse_uppercases_witness :
    ∃ m, epdMacFromStr "aabbccdd00112233".data = some m ∧
      epdMacToString m = "aabbccdd00112233".data.map asciiToUpper ∧
      epdMacFromStr ("aabbccdd00112233".data.map asciiToUpper) = some m :=
  format_parse_uppercases "aabbccdd00112233".data (by decide) (by decide)

/-! ## Ordering lemmas -/

theorem bytesLe_cons (a b : Nat) (as bs : List Nat) :
    bytesLe (a :: as) (b :: bs) =
      if a < b then true else if b < a then false else bytesLe as bs := rfl

theorem charsLe_cons (c d : Char) (x y : List Char) :
    charsLe (c :: x) (d :: y) =
      if c.toNat < d.toNat then true
      else if d.toNat < c.toNat then false
      else charsLe x y := rfl

theorem hexUpper_toNat_lt : ∀ d1, d1 < 16 → ∀ d2, d2 < 16 →
    ((hexDigitUpper d1).toNat < (hexDigitUpper d2).toNat ↔ d1 < d2) := by
  decide

theorem bytesLe_eq_charsLe : ∀ (a b : List Nat), a.length = b.length →
    (∀ x ∈ a, x < 256) → (∀ x ∈ b, x < 256) →
    bytesLe a b = charsLe (epdMacToString a) (epdMacToString b) := by
  intro a
  induction a with
  | nil =>
    intro b hlen _ _
    have hbn : b = [] := by
      cases b with
      | nil => rfl
      | cons y bs => simp at hlen
    subst hbn
    rfl
  | cons x as ih =>
    intro b hlen ha hb
    cases b with
    | nil => simp at hlen
    | cons y bs =>
      have hx := ha x (List.mem_cons_self x as)
      have hy := hb y (List.mem_cons_self y bs)
      have hx1 : x / 16 < 16 := by omega
      have hx2 : x % 16 < 16 := by omega
      have hy1 : y / 16 < 16 := by omega
      have hy2 : y % 16 < 16 := by omega
      have hfa : epdMacToString (x :: as) = hexDigitUpper (x / 16) ::
          hexDigitUpper (x % 16) :: epdMacToString as := rfl
      have hfb : epdMacToString (y :: bs) = hexDigitUpper (y / 16) ::
          hexDigitUpper (y % 16) :: epdMacToString bs := rfl
      have htail := ih bs (by simpa using hlen)
        (fun z hz => ha z (List.mem_cons_of_mem x hz))
        (fun z hz => hb z (List.mem_cons_of_mem y hz))
      rw [hfa, hfb, bytesLe_cons, charsLe_cons, charsLe_cons,
        if_congr (hexUpper_toNat_lt (x / 16) hx1 (y / 16) hy1) rfl rfl,
        if_congr (hexUpper_toNat_lt (y / 16) hy1 (x / 16) hx1) rfl rfl,
        if_congr (hexUpper_toNat_lt (x % 16) hx2 (y % 16) hy2) rfl rfl,
        if_congr (hexUpper_toNat_lt (y % 16) hy2 (x % 16) hx2) rfl rfl]
      split_ifs <;> first
        | rfl
        | exact htail
        | (exfalso; omega)

/-- C9: the derived byte-wise ordering of addresses agrees with
lexicographic ordering of their formatted uppercase-hex text; the two
scenario addresses sort with `0011223344556677` before
`AABBCCDDEEFFAABB`. -/
theorem epdMac_order_agrees_format (a b : MacBytes) (ha8 : a.length = 8)
    (hb8 : b.length = 8) (ha : ∀ x ∈ a, x < 256) (hb : ∀ x ∈ b, x < 256) :
    (bytesLe a b = true ↔
      charsLe (epdMacToString a) (epdMacToString b) = true) ∧
    epdMacToString mac0011 = "0011223344556677".data ∧
    epdMacToString macAABB = "AABBCCDDEEFFAABB".data ∧
    bytesLe mac0011 macAABB = true ∧
    charsLe (epdMacToString mac0011) (epdMacToString macAABB) = true := by
  refine ⟨?_, by decide, by decide, by decide, by decide⟩
  rw [bytesLe_eq_charsLe a b (by omega) ha hb]

/-- Witness for C9 at the two scenario addresses. -/
theorem epdMac_order_agrees_format_witness :
    (bytesLe mac0011 macAABB = true ↔
      charsLe (epdMacToString mac0011) (epdMacToString macAABB) = true) ∧
    epdMacToString mac0011 = "0011223344556677".data ∧
    epdMacToString macAABB = "AABBCCDDEEFFAABB".data ∧
    bytesLe mac0011 macAABB = true ∧
    charsLe (epdMacToString mac0011) (epdMacToString macAABB) = true :=
  epdMac_order_agrees_format mac0011 macAABB rfl rfl (by decide) (by decide)

end EpsServer
